import Mathlib

set_option linter.unusedVariables false
set_option maxHeartbeats 1000000

/-!
Shallow embedding of the van Emde Boas tree implementation in `src/lib.rs`
(crate `veb_rs`), together with proofs about its behaviour.

Modelling conventions:
* `VEBTree` mirrors the Rust struct field for field; the Rust field
  `universe` is called `univ` here because `universe` is a Lean keyword.
* Machine integers (`u64`) are modelled as `Nat`.  None of the quantities
  appearing in the executions studied below can overflow 64 bits.
* Rust panics (`assert!`, `expect`, `unwrap`, out-of-bounds `Vec` indexing)
  are modelled by `Option`, where `none` means "the call panics".  The
  `debug_assert!` in `insert` is immediately followed by an unconditional
  `expect` on the same value, so both are modelled by the same `none`.
* The Rust constructor computes `sqrt_universe`, `low_mask`, `high_mask`
  and `high_shift` with `f64` arithmetic (`ln`, `sqrt`, `ceil`, `floor`).
  These are modelled by their exact real values, computed in exact integer
  arithmetic: `ceilSqrt u` for `(u as f64).sqrt().ceil() as u64`, and
  `ceilHalfLog u` / `floorHalfLog u` for the ceiling and floor of
  `log2(u) / 2`.  For every universe appearing in a concrete statement
  below (2, 3, 4, 5, 10, 50) the `f64` computation is exact, so the model
  agrees with the compiled code on those inputs.
-/

/-- The van Emde Boas tree structure of `src/lib.rs`.  Fields appear in the
same order as in the Rust struct: `children`, `summary`, `min`, `max`,
`universe` (here `univ`), `low_mask`, `high_mask`, `high_shift`,
`sqrt_universe`. -/
inductive VEBTree : Type where
  | mk (children : List (Option VEBTree)) (summary : Option VEBTree)
      (min max : Option Nat)
      (univ low_mask high_mask high_shift sqrt_universe : Nat) : VEBTree

def VEBTree.children : VEBTree → List (Option VEBTree)
  | .mk c _ _ _ _ _ _ _ _ => c

def VEBTree.summary : VEBTree → Option VEBTree
  | .mk _ s _ _ _ _ _ _ _ => s

def VEBTree.min : VEBTree → Option Nat
  | .mk _ _ mn _ _ _ _ _ _ => mn

def VEBTree.max : VEBTree → Option Nat
  | .mk _ _ _ mx _ _ _ _ _ => mx

def VEBTree.univ : VEBTree → Nat
  | .mk _ _ _ _ u _ _ _ _ => u

def VEBTree.low_mask : VEBTree → Nat
  | .mk _ _ _ _ _ lm _ _ _ => lm

def VEBTree.high_mask : VEBTree → Nat
  | .mk _ _ _ _ _ _ hm _ _ => hm

def VEBTree.high_shift : VEBTree → Nat
  | .mk _ _ _ _ _ _ _ hs _ => hs

def VEBTree.sqrt_universe : VEBTree → Nat
  | .mk _ _ _ _ _ _ _ _ su => su

/-- Fuel-driven search for the integer square root: the largest `j ≤ k` with
`j * j ≤ n` (or `0`).  Structural recursion keeps it kernel-computable. -/
def isqrtDown : Nat → Nat → Nat
  | 0, _ => 0
  | k + 1, n => if (k + 1) * (k + 1) ≤ n then k + 1 else isqrtDown k n

/-- `⌊√n⌋` as a kernel-computable function. -/
def isqrt (n : Nat) : Nat := isqrtDown n n

/-- `⌈√n⌉`: the exact value of the Rust expression
`(universe as f64).sqrt().ceil() as u64` for all `u64` inputs on which the
`f64` computation is exact (in particular all universes used below). -/
def ceilSqrt (n : Nat) : Nat := if isqrt n * isqrt n = n then isqrt n else isqrt n + 1

/-- Fuel-driven `⌊log₂ n⌋` (with `⌊log₂ 0⌋ = ⌊log₂ 1⌋ = 0`). -/
def log2fuel : Nat → Nat → Nat
  | 0, _ => 0
  | f + 1, n => if n < 2 then 0 else log2fuel f (n / 2) + 1

/-- `⌊log₂ n⌋` as a kernel-computable function. -/
def flog2 (n : Nat) : Nat := log2fuel n n

/-- `⌈log₂ n⌉` for `n ≥ 1`. -/
def clog2 (n : Nat) : Nat := if n ≤ 1 then 0 else flog2 (n - 1) + 1

/-- `⌈log₂(n) / 2⌉`: the exact value of the Rust expression
`shift_amount.ceil() as u64` where
`shift_amount = ((n as f64).ln() / 2f64.ln()) / 2f64`.
For reals `x` one has `⌈x/2⌉ = ⌈⌈x⌉/2⌉`, whence this integer formula. -/
def ceilHalfLog (n : Nat) : Nat := (clog2 n + 1) / 2

/-- `⌊log₂(n) / 2⌋`: the exact value of the Rust expression
`shift_amount.floor() as u64`.  For reals `x` one has `⌊x/2⌋ = ⌊⌊x⌋/2⌋`. -/
def floorHalfLog (n : Nat) : Nat := flog2 n / 2



/-- Fuel-driven body of the `Ok` branch of `VEBTree::new` (`src/lib.rs:107`).
The fuel only drives the recursion into the summary (whose universe
`ceilSqrt u` is strictly smaller than `u` whenever the recursion fires, see
`ceilSqrt_lt`), so with fuel `u` the fuel never runs out; the fuel-0 clause
builds the same node without a summary and is unreachable from `newT`
(see `newTF_congr`).  The recursive call in the Rust code is
`VEBTree::new(sqrt_universe).unwrap()`, which is guarded by
`2 < sqrt_universe` and therefore never hits the `Err` branch. -/
def newTF : Nat → Nat → VEBTree
  | 0, u => VEBTree.mk (List.replicate (ceilSqrt u) none) none none none
      u (2 ^ ceilHalfLog u - 1) (2 ^ floorHalfLog u - 1) (ceilHalfLog u) (ceilSqrt u)
  | f + 1, u => VEBTree.mk (List.replicate (ceilSqrt u) none)
      (if 2 < ceilSqrt u then some (newTF f (ceilSqrt u)) else none)
      none none
      u (2 ^ ceilHalfLog u - 1) (2 ^ floorHalfLog u - 1) (ceilHalfLog u) (ceilSqrt u)

/-- The `Ok` payload of `VEBTree::new` for `universe ≥ 2`. -/
def newT (u : Nat) : VEBTree := newTF u u

/-- `VEBTree::new` (`src/lib.rs:107`): returns `Err` (modelled `none`) when
`universe ≤ 1`, otherwise the tree built by `newT`. -/
def VEBTree.new (u : Nat) : Option VEBTree :=
  if u ≤ 1 then none else some (newT u)



mutual

/-- Size of a tree (number of nodes, counting child slots), used as the
fuel for the operations below: every recursive call of every operation
descends either into a child slot or into the summary, both of which have
strictly smaller size, so `sz t` levels of fuel always suffice. -/
def sz : VEBTree → Nat
  | .mk ch s _ _ _ _ _ _ _ => 1 + szSlots ch + szSum s

def szSlots : List (Option VEBTree) → Nat
  | [] => 0
  | none :: r => 1 + szSlots r
  | some c :: r => 1 + sz c + szSlots r

def szSum : Option VEBTree → Nat
  | none => 0
  | some s => 1 + sz s

end



/-- `VEBTree::is_empty` (`src/lib.rs:202`). -/
def VEBTree.is_empty (t : VEBTree) : Bool := t.min.isNone

/-- `VEBTree::minimum` (`src/lib.rs:147`). -/
def VEBTree.minimum (t : VEBTree) : Option Nat := t.min

/-- `VEBTree::maximum` (`src/lib.rs:167`). -/
def VEBTree.maximum (t : VEBTree) : Option Nat := t.max

/-- Fuel-driven body of `VEBTree::contains` (`src/lib.rs:220`).  The fuel
decreases by one per tree level, so `sizeOf t` fuel always suffices (each
child is a strict subterm); the fuel-0 clause is unreachable from
`contains`.  `none` models a panic: the `subtree!` macro panics on an
out-of-bounds child index, and `unwrap()` on an absent `max` panics (the
`||` in the Rust source is lazy, so `max` is only unwrapped after the
`x == min` test has failed). -/
def containsF : Nat → VEBTree → Nat → Option Bool
  | 0, _, _ => none
  | f + 1, VEBTree.mk children summary mn mx u lm hm hs su, x =>
    if mn.isNone || u ≤ 2 || u ≤ x then some false
    else
      match mn with
      | none => none
      | some mnv =>
        if x = mnv then some true
        else
          match mx with
          | none => none
          | some mxv =>
            if x = mxv then some true
            else
              match children[(x >>> hs) &&& hm]? with
              | none => none
              | some none => some false
              | some (some c) => containsF f c (x &&& lm)

/-- `VEBTree::contains` (`src/lib.rs:220`). -/
def VEBTree.contains (t : VEBTree) (x : Nat) : Option Bool := containsF (sz t) t x

/-- The tail of `find_in_subtree` (`src/lib.rs:233`) after the recursive
`find_next` on the summary has produced `r` (`r = none` is the `map_or`
default, i.e. the summary had no next index).  `none` models a panic:
`subtree!` on an out-of-bounds index, `unwrap()` on an empty child slot and
`unwrap()` on an absent child `min`. -/
def findInSubtreeAux (children : List (Option VEBTree)) (hs : Nat) :
    Option Nat → Option (Option Nat)
  | none => some none
  | some j =>
    match children[j]? with
    | none => none
    | some none => none
    | some (some c) =>
      match c.min with
      | none => none
      | some m => some (some ((j <<< hs) ||| m))

/-- Fuel-driven body of `VEBTree::find_next` (`src/lib.rs:255`), with the
helper `find_in_subtree` (`src/lib.rs:233`) inlined at its two call sites.
The outer `Option` layer models panics (`none` = panic); the inner
`Option Nat` is the Rust return value.  Panics modelled: `summary!` when
the summary is absent, the `unwrap()` on the result of the recursive
`subtree.find_next(low)` call, `unwrap()` on the child `max`, and the
out-of-bounds/`unwrap` panics inside `find_in_subtree`. -/
def findNextF : Nat → VEBTree → Nat → Option (Option Nat)
  | 0, _, _ => none
  | f + 1, VEBTree.mk children summary mn mx u lm hm hs su, x =>
    if mn.isNone then some none
    else if u = 2 then
      if x = 0 ∧ mx = some 1 then some (some 1) else some none
    else
      match mn with
      | none => some none
      | some mnv =>
        if x < mnv then some (some mnv)
        else
          match children[(x >>> hs) &&& hm]? with
          | none => none
          | some none =>
            match summary with
            | none => none
            | some s =>
              match findNextF f s ((x >>> hs) &&& hm) with
              | none => none
              | some r => findInSubtreeAux children hs r
          | some (some c) =>
            match c.max with
            | none => none
            | some cmax =>
              if x &&& lm < cmax then
                match findNextF f c (x &&& lm) with
                | none => none
                | some none => none
                | some (some j) => some (some ((((x >>> hs) &&& hm)) <<< hs ||| j))
              else
                match summary with
                | none => none
                | some s =>
                  match findNextF f s ((x >>> hs) &&& hm) with
                  | none => none
                  | some r => findInSubtreeAux children hs r

/-- `VEBTree::find_next` (`src/lib.rs:255`). -/
def VEBTree.find_next (t : VEBTree) (x : Nat) : Option (Option Nat) :=
  findNextF (sz t) t x

/-- `VEBTree::empty_insert` (`src/lib.rs:289`): sets `min = max = Some x`. -/
def VEBTree.empty_insert : VEBTree → Nat → VEBTree
  | VEBTree.mk children summary _ _ u lm hm hs su, x =>
    VEBTree.mk children summary (some x) (some x) u lm hm hs su

/-- Fuel-driven body of `VEBTree::insert` (`src/lib.rs:312`).  `none` models
a panic: the `assert!(x < universe)`, out-of-bounds `Vec` indexing of
`children`, the `unwrap()` inside `VEBTree::new(sqrt_universe).unwrap()`
(which panics when `sqrt_universe ≤ 1`), and `summary_mut!` when the
summary is absent (in a debug build the `debug_assert!` fires first; both
are the same panic in this model).  The value threading mirrors the Rust
flow: the `min == max` block may update `min` or `max`, then `x` is swapped
with `min` when `x < min`, then `max` is raised, and finally the (possibly
swapped) `x` is pushed into a child. -/
def insertF : Nat → VEBTree → Nat → Option VEBTree
  | 0, _, _ => none
  | f + 1, VEBTree.mk children summary mn mx u lm hm hs su, x0 =>
    if u ≤ x0 then none
    else if mn.isNone then
      some (VEBTree.mk children summary (some x0) (some x0) u lm hm hs su)
    else
      match mn with
      | none => none
      | some mnv =>
        let mn1 := if mn = mx ∧ x0 < mnv then some x0 else mn
        let mx1 := if mn = mx ∧ mnv < x0 then some x0 else mx
        match mn1 with
        | none => none
        | some m1 =>
          let x1 := if x0 < m1 then m1 else x0
          let mn2 := if x0 < m1 then some x0 else mn1
          match mx1 with
          | none => none
          | some m2 =>
            let mx2 := if m2 < x1 then some x1 else mx1
            match children[(x1 >>> hs) &&& hm]? with
            | none => none
            | some (some c) =>
              match insertF f c (x1 &&& lm) with
              | none => none
              | some c' =>
                some (VEBTree.mk (children.set ((x1 >>> hs) &&& hm) (some c'))
                  summary mn2 mx2 u lm hm hs su)
            | some none =>
              if su ≤ 1 then none
              else
                match summary with
                | none => none
                | some s =>
                  match insertF f s ((x1 >>> hs) &&& hm) with
                  | none => none
                  | some s' =>
                    some (VEBTree.mk
                      (children.set ((x1 >>> hs) &&& hm)
                        (some ((newT su).empty_insert (x1 &&& lm))))
                      (some s') mn2 mx2 u lm hm hs su)

/-- `VEBTree::insert` (`src/lib.rs:312`). -/
def VEBTree.insert (t : VEBTree) (x : Nat) : Option VEBTree := insertF (sz t) t x

/-- The `min`-replacement step of `VEBTree::delete` (`src/lib.rs:382-390`),
reached when the element being deleted is the minimum (`mnv = x0`).
Returns the pair of the (possibly reassigned) element to delete from the
children and the new `min`; `none` models a panic (`summary!` on an absent
summary, `subtree!`/`unwrap()` on the slot named by the summary minimum,
`unwrap()` on that child's `min`).  When the summary is empty the new
`min` is the old `max` and `x` is left unchanged. -/
def deleteMinFix (children : List (Option VEBTree)) (summary : Option VEBTree)
    (mn mx : Option Nat) (mnv x0 : Nat) : Option (Nat × Option Nat) :=
  if mnv = x0 then
    match summary with
    | none => none
    | some s =>
      match s.min with
      | none => some (x0, mx)
      | some j =>
        match children[j]? with
        | none => none
        | some none => none
        | some (some c) =>
          match c.min with
          | none => none
          | some newx => some (newx, some newx)
  else some (x0, mn)

/-- The `max`-replacement step of `VEBTree::delete` (`src/lib.rs:391-398`),
reached when the (possibly reassigned) element `x1` equals the maximum.
Returns the new `max`; note that the Rust code assigns
`subtree!(self, summary.max).unwrap().max` WITHOUT recombining the cluster
index through `index` (see C6), and consults the summary before the
child-level deletion has happened. -/
def deleteMaxFix (children : List (Option VEBTree)) (summary : Option VEBTree)
    (mn1 mx : Option Nat) (mxv x1 : Nat) : Option (Option Nat) :=
  if mxv = x1 then
    match summary with
    | none => none
    | some s =>
      match s.min with
      | none => some mn1
      | some _ =>
        match s.max with
        | none => none
        | some k =>
          match children[k]? with
          | none => none
          | some none => none
          | some (some c) => some c.max
  else some mx

/-- Fuel-driven body of `VEBTree::delete` (`src/lib.rs:371`).  The returned
pair is the Rust `bool` result together with the mutated tree.  `none`
models a panic: `summary!` when the summary is absent, `unwrap()` on
absent `min`/`max`/child slots, and out-of-bounds `Vec` indexing.  The
flow mirrors the Rust source: empty tree, singleton `min = max = x`, the
`min`-replacement (`deleteMinFix`, which reassigns `x`), the
`max`-replacement (`deleteMaxFix`), and finally the recursive deletion in
the child with the possible drop of the child and the summary update. -/
def deleteF : Nat → VEBTree → Nat → Option (Bool × VEBTree)
  | 0, _, _ => none
  | f + 1, VEBTree.mk children summary mn mx u lm hm hs su, x0 =>
    if mn.isNone then some (false, VEBTree.mk children summary mn mx u lm hm hs su)
    else if mn = mx ∧ mn = some x0 then
      some (true, VEBTree.mk children summary none none u lm hm hs su)
    else
      match mn with
      | none => none
      | some mnv =>
        match deleteMinFix children summary mn mx mnv x0 with
        | none => none
        | some (x1, mn1) =>
          match mx with
          | none => none
          | some mxv =>
            match deleteMaxFix children summary mn1 mx mxv x1 with
            | none => none
            | some mx1 =>
              match summary with
              | none => none
              | some s =>
                if s.min.isNone then
                  some (true, VEBTree.mk children (some s) mn1 mx1 u lm hm hs su)
                else
                  match children[(x1 >>> hs) &&& hm]? with
                  | none => none
                  | some none => none
                  | some (some c) =>
                    match deleteF f c (x1 &&& lm) with
                    | none => none
                    | some (result, c') =>
                      if c'.min.isNone then
                        match deleteF f s ((x1 >>> hs) &&& hm) with
                        | none => none
                        | some (_, s') =>
                          some (result, VEBTree.mk
                            (children.set ((x1 >>> hs) &&& hm) none)
                            (some s') mn1 mx1 u lm hm hs su)
                      else
                        some (result, VEBTree.mk
                          (children.set ((x1 >>> hs) &&& hm) (some c'))
                          (some s) mn1 mx1 u lm hm hs su)

/-- `VEBTree::delete` (`src/lib.rs:371`). -/
def VEBTree.delete (t : VEBTree) (x : Nat) : Option (Bool × VEBTree) :=
  deleteF (sz t) t x

/-- The iterator state of `VEBTreeIterator` (`src/lib.rs:470`). -/
structure VEBTreeIterator where
  tree : VEBTree
  done : Bool
  prev : Option Nat

/-- `VEBTree::iter` (`src/lib.rs:450`): initial cursor `prev = Some(0)`. -/
def VEBTree.iter (t : VEBTree) : VEBTreeIterator :=
  { tree := t, done := false, prev := some 0 }

/-- `Iterator::next` for `VEBTreeIterator` (`src/lib.rs:479`): when a
cursor is present, advance it with `find_next` and yield the new cursor
(`none` yielded means the iterator is exhausted).  The outer `Option`
models a panic inside `find_next`. -/
def VEBTreeIterator.next (it : VEBTreeIterator) :
    Option (Option Nat × VEBTreeIterator) :=
  match it.prev with
  | some p =>
    match it.tree.find_next p with
    | none => none
    | some r => some (r, { tree := it.tree, done := it.done, prev := r })
  | none => some (none, it)

/-- A `min`/`max` sentinel as a (zero- or one-element) list. -/
def optList : Option Nat → List Nat
  | none => []
  | some a => [a]

/-- Modelled from the spec: the set `S` represented by a tree node, read off
the representation described in §3 of the specification.  A node represents
its `min` and `max` sentinels together with, for every present child
`children[i]`, the elements `index(i, j) = (i << shift) | j` for `j` in the
child's set.  (The source has no such observer; this decoder is the
§3 reading of the data.)  The fuel decreases once per level, so `sz t` fuel
suffices; the fuel-0 clause is unreachable from `VEBTree.elems`. -/
def elemsF : Nat → VEBTree → List Nat
  | 0, _ => []
  | f + 1, VEBTree.mk children _ mn mx _ _ _ hs _ =>
    optList mn ++ optList mx ++
      (children.enum.map (fun p =>
        match p.2 with
        | none => ([] : List Nat)
        | some c => (elemsF f c).map (fun j => (p.1 <<< hs) ||| j))).flatten

/-- The element list of a tree (its represented set, with repetitions). -/
def VEBTree.elems (t : VEBTree) : List Nat := elemsF (sz t) t

/-- Modelled from the spec: the elements contributed by the children alone
(the decode of §3 invariant 3, excluding the `min`/`max` sentinels). -/
def VEBTree.childrenElems : VEBTree → List Nat
  | .mk children _ _ _ _ _ _ hs _ =>
    (children.enum.map (fun p =>
      match p.2 with
      | none => ([] : List Nat)
      | some c => c.elems.map (fun j => (p.1 <<< hs) ||| j))).flatten

/-- Modelled from the spec: the representation invariants 1–6 of §3, as a
decidable structural walk.  Differences from the literal §3 text, both
forced by the implementation (see C8): the summary is present iff
`2 < sqrt_universe` (the constructor allocates no summary for
`sqrt_universe ≤ 2`, i.e. for `universe ≤ 4`, not for `universe ≤ 2`), and
for `universe ≤ 2` the node is required to keep its children and summary
empty (§4.2 step 3: in the base case only `min`/`max` hold elements).
Key split for invariant 3 uses §3's `high(x) = x >> shift` and
`low(x) = x & low_mask` with the node's own `high_shift`/`low_mask`
fields. -/
def wfbF : Nat → VEBTree → Bool
  | 0, _ => false
  | f + 1, VEBTree.mk children summary mn mx u lm hm hs su =>
    let t := VEBTree.mk children summary mn mx u lm hm hs su
    decide (2 ≤ u)
    && (children.length == su)
    && (match mn, mx with
        | some a, some b =>
          decide (a ≤ b) && decide (b < u) && t.elems.contains a && t.elems.contains b
        | none, none => true
        | _, _ => false)
    && (summary.isSome == decide (2 < su))
    && (if u ≤ 2 then children.all Option.isNone && summary.isNone
        else
          t.elems.all (fun x =>
            (mn == some x)
            || (match children[x >>> hs]? with
                | some (some c) => c.elems.contains (x &&& lm)
                | _ => false))
          && (match mn with
              | some a => !(t.childrenElems.contains a)
              | none => true)
          && (match summary with
              | some s => s.elems.all (fun i => decide (i < children.length))
                  && (List.range children.length).all (fun i =>
                        (s.elems.contains i) == (children.getD i none).isSome)
              | none => true))
    && children.all (fun slot =>
        match slot with
        | none => true
        | some c => (c.univ == su) && c.min.isSome && wfbF f c)
    && (match summary with
        | some s => (s.univ == su) && wfbF f s
        | none => true)

/-- Modelled from the spec: a tree satisfies the representation invariants
of §3 (see `wfbF`). -/
def VEBTree.wfb (t : VEBTree) : Bool := wfbF (sz t) t


/-- A universe-4 node holding the single low-key `1`: the child of
`exTree10` through which `exTree10` represents the element `9`
(`index(2, 1) = (2 <<< 2) ||| 1 = 9`). -/
def exChild4 : VEBTree := VEBTree.mk [none, none] none (some 1) (some 1) 4 1 1 1 2

/-- The summary of `exTree10`: a universe-4 node holding exactly the index
`2` of the one non-empty child. -/
def exSummary4 : VEBTree := VEBTree.mk [none, none] none (some 2) (some 2) 4 1 1 1 2

/-- A universe-10 tree representing the set with elements 4 and 9 exactly as the §3 invariants
prescribe: `min = 4` kept out of the children, `max = 9` stored in
`children[high(9)] = children[9 >>> 2] = children[2]` at key
`low(9) = 9 &&& 3 = 1`, and the summary holding the single index 2.  The mask/shift
fields are those `VEBTree::new(10)` computes. -/
def exTree10 : VEBTree :=
  VEBTree.mk [none, none, some exChild4, none] (some exSummary4) (some 4) (some 9) 10 3 1 2 4

/-- The universe-2 tree representing the set with elements 0 and 1, with the field values
`VEBTree::new(2)` computes. -/
def exTree2 : VEBTree := VEBTree.mk [none, none] none (some 0) (some 1) 2 1 0 1 2

/-- The universe-2 tree representing the singleton set of 1. -/
def exTree2b : VEBTree := VEBTree.mk [none, none] none (some 1) (some 1) 2 1 0 1 2

/-- The universe-10 tree representing the singleton set of 5: the result of
`VEBTree::new(10)` followed by `insert(5)`. -/
def exTree10b : VEBTree :=
  VEBTree.mk [none, none, none, none] (some (newT 4)) (some 5) (some 5) 10 3 1 2 4

-- ### Theorems ###

theorem isqrtDown_sq_le (k n : Nat) : isqrtDown k n * isqrtDown k n ≤ n := by
  induction k with
  | zero => simp [isqrtDown]
  | succ k ih =>
    unfold isqrtDown
    split
    · assumption
    · exact ih

theorem le_isqrtDown (k n j : Nat) (hj : j ≤ k) (hsq : j * j ≤ n) :
    j ≤ isqrtDown k n := by
  induction k with
  | zero => omega
  | succ k ih =>
    unfold isqrtDown
    split
    · omega
    · rename_i h
      have hjk : j ≤ k := by
        rcases Nat.lt_or_ge j (k + 1) with h' | h'
        · omega
        · exfalso
          have hj1 : j = k + 1 := by omega
          rw [hj1] at hsq
          exact h hsq
      exact ih hjk

theorem isqrt_sq_le (n : Nat) : isqrt n * isqrt n ≤ n := isqrtDown_sq_le n n

theorem lt_isqrt_succ (n : Nat) : n < (isqrt n + 1) * (isqrt n + 1) := by
  by_contra h
  push_neg at h
  have h1 : isqrt n + 1 ≤ n := by
    have : isqrt n + 1 ≤ (isqrt n + 1) * (isqrt n + 1) :=
      Nat.le_mul_of_pos_left _ (Nat.succ_pos _)
    omega
  have h2 := le_isqrtDown n n (isqrt n + 1) h1 h
  unfold isqrt at h2
  omega

theorem le_ceilSqrt_sq (n : Nat) : n ≤ ceilSqrt n * ceilSqrt n := by
  unfold ceilSqrt
  split
  · omega
  · have := lt_isqrt_succ n
    omega

theorem ceilSqrt_le_two (n : Nat) (h : n ≤ 4) : ceilSqrt n ≤ 2 := by
  have h1 := isqrt_sq_le n
  have h2 : isqrt n ≤ 2 := by
    by_contra h'
    push_neg at h'
    have : 3 * 3 ≤ isqrt n * isqrt n := Nat.mul_le_mul h' h'
    omega
  unfold ceilSqrt
  split
  · omega
  · rename_i hne
    rcases Nat.lt_or_ge (isqrt n) 2 with h3 | h3
    · omega
    · have h4 : isqrt n = 2 := by omega
      rw [h4] at h1 hne
      omega

theorem ceilSqrt_lt (u : Nat) (h : 2 < ceilSqrt u) : ceilSqrt u < u := by
  have h5 : 5 ≤ u := by
    by_contra h'
    push_neg at h'
    have := ceilSqrt_le_two u (by omega)
    omega
  have hs := isqrt_sq_le u
  have hlt : isqrt u < u - 1 := by
    by_contra h'
    push_neg at h'
    have hmul : (u - 1) * (u - 1) ≤ isqrt u * isqrt u := Nat.mul_le_mul h' h'
    have h4v : 4 * (u - 1) ≤ (u - 1) * (u - 1) :=
      Nat.mul_le_mul_right _ (by omega)
    omega
  unfold ceilSqrt
  split <;> omega

/-- The fuel of `newTF` is irrelevant as soon as it is at least the
universe: the recursion in `VEBTree::new` terminates within `u` levels. -/
theorem newTF_congr : ∀ u f f', u ≤ f → u ≤ f' → newTF f u = newTF f' u := by
  intro u
  induction u using Nat.strong_induction_on with
  | _ u ih =>
    intro f f' hf hf'
    match f, f' with
    | 0, 0 => rfl
    | 0, g + 1 =>
      have hu : u = 0 := by omega
      subst hu
      simp only [newTF]
      rw [if_neg (by decide)]
    | g + 1, 0 =>
      have hu : u = 0 := by omega
      subst hu
      simp only [newTF]
      rw [if_neg (by decide)]
    | a + 1, b + 1 =>
      simp only [newTF]
      by_cases h : 2 < ceilSqrt u
      · have hlt := ceilSqrt_lt u h
        simp only [if_pos h]
        rw [ih (ceilSqrt u) hlt a b (by omega) (by omega)]
      · simp only [if_neg h]

theorem one_le_sz (t : VEBTree) : 1 ≤ sz t := by
  cases t with
  | mk ch s mn mx u lm hm hs su => simp [sz]; omega

theorem sz_lt_of_slot {l : List (Option VEBTree)} {i : Nat} {c : VEBTree}
    (h : l[i]? = some (some c)) : sz c < szSlots l := by
  induction l generalizing i with
  | nil => simp at h
  | cons a rest ih =>
    cases i with
    | zero =>
      simp at h
      subst h
      simp [szSlots]
      omega
    | succ j =>
      simp at h
      have := ih h
      cases a <;> simp [szSlots] <;> omega

theorem sz_succ (ch : List (Option VEBTree)) (sm : Option VEBTree) (mn mx : Option Nat)
    (u lm hm hs su : Nat) :
    sz (VEBTree.mk ch sm mn mx u lm hm hs su) = (szSlots ch + szSum sm) + 1 := by
  simp [sz]; omega

theorem two_lt_ceilSqrt_iff (u : Nat) : 2 < ceilSqrt u ↔ 4 < u := by
  constructor
  · intro h
    by_contra h'
    push_neg at h'
    have := ceilSqrt_le_two u h'
    omega
  · intro h
    by_contra h'
    push_neg at h'
    have h1 := le_ceilSqrt_sq u
    have h2 : ceilSqrt u * ceilSqrt u ≤ 2 * 2 := Nat.mul_le_mul h' h'
    omega

/-- The structural walk `wfbF` unpacked: the facts about a well-formed node
used by the theorems below (universe at least 2; `min`/`max` present
together, ordered, and below the universe; and in the base case
`universe ≤ 2` all children and the summary are absent). -/
theorem wfb_parts (ch : List (Option VEBTree)) (sm : Option VEBTree) (mno mxo : Option Nat)
    (u lm hma hsh su : Nat)
    (hw : (VEBTree.mk ch sm mno mxo u lm hma hsh su).wfb = true) :
    2 ≤ u ∧
    (match mno, mxo with
     | some a, some b => a ≤ b ∧ b < u
     | none, none => True
     | _, _ => False) ∧
    (u ≤ 2 → ch.all Option.isNone = true ∧ sm = none) := by
  unfold VEBTree.wfb at hw
  rw [sz_succ] at hw
  simp only [wfbF] at hw
  simp only [Bool.and_eq_true] at hw
  obtain ⟨⟨⟨⟨⟨⟨h2u, hlen⟩, hmm⟩, hsum⟩, hbase⟩, hch⟩, hsm⟩ := hw
  refine ⟨of_decide_eq_true h2u, ?_, ?_⟩
  · cases mno with
    | none =>
      cases mxo with
      | none => trivial
      | some b => simp at hmm
    | some a =>
      cases mxo with
      | none => simp at hmm
      | some b =>
        simp only [Bool.and_eq_true, decide_eq_true_eq] at hmm
        exact ⟨hmm.1.1.1, hmm.1.1.2⟩
  · intro hu2
    rw [if_pos hu2] at hbase
    simp only [Bool.and_eq_true] at hbase
    exact ⟨hbase.1, Option.isNone_iff_eq_none.mp hbase.2⟩

/-- On a well-formed non-empty tree, a query strictly below the minimum is
answered with the minimum (which is strictly above the query).  This is the
`x < self.min.unwrap()` branch of `find_next` together with the
universe-2 base case. -/
theorem findNext_of_lt_min (t : VEBTree) (mn x : Nat) (hw : t.wfb = true)
    (hmn : t.min = some mn) (hx : x < mn) : t.find_next x = some (some mn) := by
  rcases t with ⟨ch, sm, mno, mxo, u, lm, hma, hsh, su⟩
  simp [VEBTree.min] at hmn
  subst hmn
  obtain ⟨h2u, hmm, hbase⟩ := wfb_parts ch sm _ mxo u lm hma hsh su hw
  unfold VEBTree.find_next
  rw [sz_succ]
  simp only [findNextF]
  simp only [Option.isNone_some, Bool.false_eq_true, if_false]
  by_cases hu : u = 2
  · subst hu
    cases mxo with
    | none => exact absurd hmm (by simp)
    | some b =>
      simp only at hmm
      have hmn1 : mn = 1 := by omega
      have hb1 : b = 1 := by omega
      have hx0 : x = 0 := by omega
      subst hmn1; subst hb1; subst hx0
      simp
  · simp only [if_neg hu, if_pos hx]

theorem decode_nil (f hsx : Nat) :
    ∀ (ch : List (Option VEBTree)) (n : Nat), ch.all Option.isNone = true →
    ((ch.enumFrom n).map (fun p =>
      match p.2 with
      | none => ([] : List Nat)
      | some c => (elemsF f c).map (fun j => (p.1 <<< hsx) ||| j))).flatten = [] := by
  intro ch
  induction ch with
  | nil => simp [List.enumFrom]
  | cons a rest ih =>
    intro n hall
    simp only [List.all_cons, Bool.and_eq_true] at hall
    cases a with
    | none => simp [List.enumFrom, ih (n + 1) hall.2]
    | some c => simp at hall

/-- A node whose child slots are all absent represents exactly its
`min`/`max` sentinels. -/
theorem elems_of_base (ch : List (Option VEBTree)) (sm : Option VEBTree) (mn mx : Option Nat)
    (u lm hma hsh su : Nat) (hch : ch.all Option.isNone = true) :
    (VEBTree.mk ch sm mn mx u lm hma hsh su).elems = optList mn ++ optList mx := by
  unfold VEBTree.elems
  rw [sz_succ]
  simp only [elemsF]
  rw [show ch.enum = ch.enumFrom 0 from rfl, decode_nil _ _ ch 0 hch]
  simp

/-- C1: the claim says every `insert(x)` with `x < universe` completes
without panicking, and in particular `new(2); insert(0); insert(1)`
succeeds with `minimum() = 0` and `maximum() = 1`.  The code violates
this: the first insert succeeds (leaving `min = max = Some 0`), but the
second insert of the in-range value `1` reaches the `None` child arm and
panics in `summary_mut!` (`src/lib.rs:349`), because `VEBTree::new`
allocates no summary when `sqrt_universe ≤ 2` (`src/lib.rs:121`) and
`insert` has no universe-2 base case.  The crate's own test
`insertion_and_contains` (`src/lib.rs:520`) performs exactly these two
inserts at `i = 2`, and the doc comment of `insert` promises a panic only
for `x ≥ universe`, so this is a bug in the code. -/
theorem c1_insert_in_range_panics :
    ((VEBTree.new 2).bind (fun t0 => t0.insert 0)).map (fun t => (t.min, t.max))
      = some (some 0, some 0) ∧
    (((VEBTree.new 2).bind (fun t0 => t0.insert 0)).bind (fun t => t.insert 1)).isNone
      = true := by decide

/-- C2, counterexample: the claim says `find_next(x)` returns the smallest
element `y ≥ x` (so `find_next(min)` would return `min` itself).  On the
tree built by `new(10); insert(5)` the element `5` is present (`contains`
confirms it and `min = 5`), yet `find_next(5)` returns `None`: the code
computes a strictly-greater successor, as its own doc example
(`src/lib.rs:250`) asserts. -/
theorem c2_counterexample_find_next_not_geq :
    ((VEBTree.new 10).bind (fun t0 => t0.insert 5)).map
      (fun t => (t.find_next 5, t.contains 5, t.min))
      = some (some none, some true, some 5) := by decide

/-- C2, amended: on every well-formed tree of universe 2, `find_next(x)`
returns the smallest element of `S` STRICTLY greater than `x` (absent when
none exists) — the `≥` of the claim is corrected to `>`. -/
theorem c2_find_next_strict_successor_base (t : VEBTree) (hw : t.wfb = true)
    (hu : t.univ = 2) (x : Nat) :
    t.find_next x = some ((t.elems.filter (fun z => decide (x < z))).min?) := by
  rcases t with ⟨ch, sm, mno, mxo, u, lm, hma, hsh, su⟩
  simp only [VEBTree.univ] at hu
  subst hu
  obtain ⟨h2u, hmm, hbase⟩ := wfb_parts ch sm mno mxo 2 lm hma hsh su hw
  obtain ⟨hchn, hsmn⟩ := hbase (by omega)
  rw [elems_of_base ch sm mno mxo 2 lm hma hsh su hchn]
  unfold VEBTree.find_next
  rw [sz_succ]
  simp only [findNextF]
  cases mno with
  | none =>
    cases mxo with
    | none => simp [optList]
    | some b => exact absurd hmm (by simp)
  | some a =>
    cases mxo with
    | none => exact absurd hmm (by simp)
    | some b =>
      simp only at hmm
      obtain ⟨hab, hb2⟩ := hmm
      simp only [Option.isNone_some, Bool.false_eq_true, if_false, reduceIte]
      interval_cases b
      · interval_cases a
        · simp [optList, List.filter]
      · cases x with
        | zero =>
          interval_cases a
          · decide
          · decide
        | succ y =>
          interval_cases a
          · simp [optList, List.filter, Nat.lt_one_iff]
          · simp [optList, List.filter, Nat.lt_one_iff]

/-- C2, witness: the amended theorem applied to the universe-2 tree
holding 0 and 1, at the query 0. -/
theorem c2_find_next_strict_successor_base_witness :
    exTree2.wfb = true ∧ exTree2.univ = 2 ∧
    exTree2.find_next 0 = some ((exTree2.elems.filter (fun z => decide (0 < z))).min?) :=
  ⟨by decide, by decide, c2_find_next_strict_successor_base exTree2 (by decide) (by decide) 0⟩

/-- C3: the claim says `contains(x)` is true exactly when `x ∈ S`,
including for trees of universe 2.  After `new(2); insert(0)` the element
0 is the tree's minimum (and is in the represented set), yet
`contains(0) = false`: the guard at `src/lib.rs:221` short-circuits to
`false` whenever `universe ≤ 2`, before the `x == min` test.  The crate's
own test `insertion_and_contains` asserts `contains(0)` right after this
insert at `i = 2`, so this is a bug in the code. -/
theorem c3_contains_false_on_universe_two :
    ((VEBTree.new 2).bind (fun t0 => t0.insert 0)).map
      (fun t => (t.contains 0, t.min, t.elems.contains 0))
      = some (some false, some 0, true) := by decide

/-- C4: the claim says `delete(x)` returns `true` exactly when `x` was
present, and is a `false`-returning no-op on absent elements.  On the tree
built by `new(10); insert(5)` the value 3 is absent (`contains 3 = false`),
yet `delete(3)` returns `true`: after the `min`/`max` replacement steps do
nothing, the code reaches `if !summary!(self).is_empty()` with an empty
summary and returns the hard-coded `true` (`src/lib.rs:413`).  This
contradicts the function's own doc comment ("returning true if the element
was present to remove", `src/lib.rs:355`), so this is a bug in the code. -/
theorem c4_delete_absent_returns_true :
    ((VEBTree.new 10).bind (fun t0 => t0.insert 5)).map
      (fun t => ((t.delete 3).map Prod.fst, t.contains 3))
      = some (some true, some false) := by decide

/-- C5: the claim says inserting an element already in `S` is a no-op that
leaves the tree bit-identical.  The code violates this in two ways.
(1) After `new(2); insert(0)`, re-inserting the present element 0 PANICS
(the duplicate falls through to the child arm and hits the absent
summary), contradicting `insert`'s own documentation that it panics only
for `x ≥ universe`.  (2) After `new(5); insert(3)`, re-inserting 3 does
not panic but allocates `children[0]` (storing `low(3)` there), so the
tree is not bit-identical to its pre-state: the child slot 0 flips from
absent to present. -/
theorem c5_reinsert_existing_changes_tree :
    (((VEBTree.new 2).bind (fun t0 => t0.insert 0)).bind (fun t => t.insert 0)).isNone
      = true ∧
    ((VEBTree.new 2).bind (fun t0 => t0.insert 0)).map (fun t => t.min)
      = some (some 0) ∧
    (((VEBTree.new 5).bind (fun t0 => t0.insert 3)).bind (fun t => t.insert 3)).map
      (fun t => (t.children.getD 0 none).isSome) = some true ∧
    ((VEBTree.new 5).bind (fun t0 => t0.insert 3)).map
      (fun t => (t.children.getD 0 none).isSome) = some false := by decide

/-- C6: the claim says that after deleting `x = max` from a tree with at
least two elements, `maximum()` equals the largest remaining element.  On
the tree with elements 25 and 26 over universe 50 (the configuration of
the crate's own `delete` test at `i = 50`), `delete(26)` returns `true`
but leaves `max = Some 2`: the code recomputes
`max = children[summary.max].max` WITHOUT recombining the cluster index
through `index(k, ·)` (`src/lib.rs:396`), and does so before the
child-level deletion rather than after it.  The largest remaining element
is 25 (= `min`), and 2 is not an element at all, contradicting
`maximum`'s own doc ("the highest value stored in the tree"), so this is
a bug in the code. -/
theorem c6_delete_max_wrong_maximum :
    ((((VEBTree.new 50).bind (fun t0 => t0.insert 25)).bind
        (fun t1 => t1.insert 26)).bind (fun t2 => t2.delete 26)).map
      (fun r => (r.1, r.2.min, r.2.max, r.2.contains 25))
      = some (true, some 25, some 2, some true) := by decide

/-- C7, counterexample: the claim says `iter()` yields every element of
`S` in ascending order starting from the minimum, in particular yielding 0
when `0 ∈ S`.  On the tree built by `new(10); insert(0)` the set is
exactly the singleton of 0 (`elems` contains 0, `min = Some 0`), yet the
iterator's very first `next()` yields `None` — exhausted without producing
anything: the initial cursor is `Some(0)` (not `min`, `src/lib.rs:454`)
and `next` advances with the strictly-greater `find_next` before
yielding. -/
theorem c7_counterexample_iterator_skips_zero :
    ((VEBTree.new 10).bind (fun t0 => t0.insert 0)).map
      (fun t => (t.iter.next.map Prod.fst, t.elems.contains 0, t.min))
      = some (some none, true, some 0) := by decide

/-- C7, amended: only the step-level mechanics of the iterator survive.
(1) `iter()` starts with the cursor at 0, not at the tree's minimum;
(2) `next()` on an absent cursor yields absent and leaves the iterator
unchanged; (3)–(4) `next()` on cursor `p` is exactly `find_next(p)`: it
panics when `find_next` panics, and otherwise yields `find_next(p)` while
moving the cursor there; (5) consequently the first `next()` on a
well-formed tree whose minimum is at least 1 yields exactly that minimum.
None of the original sequence-level guarantees hold: the element 0 is
never yielded (see the counterexample), and on the invariant-satisfying
tree `exTree10` the cursor sticks at 9 — (6) the second and (7) the third
`next()` both yield 9 — so the iterator neither produces each element
exactly once nor is it exhausted after visiting the elements. -/
theorem c7_iterator_step_characterisation :
    (∀ t : VEBTree, t.iter = ⟨t, false, some 0⟩) ∧
    (∀ it : VEBTreeIterator, it.prev = none → it.next = some (none, it)) ∧
    (∀ (it : VEBTreeIterator) (p : Nat), it.prev = some p →
      it.tree.find_next p = none → it.next = none) ∧
    (∀ (it : VEBTreeIterator) (p : Nat) (r : Option Nat), it.prev = some p →
      it.tree.find_next p = some r → it.next = some (r, ⟨it.tree, it.done, r⟩)) ∧
    (∀ (t : VEBTree) (mn : Nat), t.wfb = true → t.min = some mn → 1 ≤ mn →
      t.iter.next = some (some mn, ⟨t, false, some mn⟩)) ∧
    (exTree10.iter.next.bind (fun s => s.2.next)).map Prod.fst = some (some 9) ∧
    ((exTree10.iter.next.bind (fun s => s.2.next)).bind (fun s => s.2.next)).map
      Prod.fst = some (some 9) := by
  refine ⟨fun t => rfl, ?_, ?_, ?_, ?_, by decide, by decide⟩
  · intro it h
    simp only [VEBTreeIterator.next, h]
  · intro it p h hf
    simp only [VEBTreeIterator.next, h, hf]
  · intro it p r h hf
    simp only [VEBTreeIterator.next, h, hf]
  · intro t mn hw hmn h1
    unfold VEBTree.iter VEBTreeIterator.next
    simp only
    rw [findNext_of_lt_min t mn 0 hw hmn (by omega)]

/-- C7, witness: clause (5) of the amended theorem applied to the
universe-10 tree holding exactly the element 5. -/
theorem c7_iterator_step_characterisation_witness :
    exTree10b.wfb = true ∧ exTree10b.min = some 5 ∧
    exTree10b.iter.next = some (some 5, ⟨exTree10b, false, some 5⟩) :=
  ⟨by decide, by decide,
    c7_iterator_step_characterisation.2.2.2.2.1 exTree10b 5 (by decide) (by decide)
      (by omega)⟩

/-- C8, counterexample: the claim says that after every public operation
the summary is absent exactly when the node's universe is ≤ 2.  Already
after `new(3)` — a public operation — the summary is absent although the
universe is 3 > 2: the constructor tests `sqrt_universe <= 2`
(`src/lib.rs:121`), which holds for every universe up to 4. -/
theorem c8_counterexample_summary_absent_universe_three :
    (VEBTree.new 3).map (fun t => (t.summary.isNone, t.univ, t.min.isNone))
      = some (true, 3, true) := by decide

/-- C8, amended: after `new(universe)` (universe ≥ 2) the freshly built
node satisfies the constructor's invariants with the summary condition as
implemented: `min` and `max` are absent (the set is empty), every child
slot is absent, and the summary is present exactly when `universe > 4`
(equivalently `sqrt_universe > 2`), in which case it is the empty tree
built by `new(sqrt_universe)`.  The claim's blanket statement that
`insert` and `delete` also re-establish the §3 invariants fails (see C1,
C5, C6). -/
theorem c8_new_invariants (u : Nat) (hu : 2 ≤ u) :
    VEBTree.new u = some (newT u) ∧
    (newT u).min = none ∧ (newT u).max = none ∧
    (newT u).children = List.replicate (ceilSqrt u) none ∧
    ((newT u).summary.isSome ↔ 4 < u) ∧
    (∀ s, (newT u).summary = some s → s = newT (ceilSqrt u)) := by
  obtain ⟨k, hk⟩ : ∃ k, u = k + 1 := ⟨u - 1, by omega⟩
  constructor
  · unfold VEBTree.new
    rw [if_neg (by omega)]
  subst hk
  unfold newT
  simp only [newTF]
  by_cases h : 2 < ceilSqrt (k + 1)
  · have hlt := ceilSqrt_lt (k + 1) h
    rw [if_pos h]
    refine ⟨rfl, rfl, rfl, ?_, ?_⟩
    · simp [VEBTree.summary, (two_lt_ceilSqrt_iff (k + 1)).mp h]
    · intro s hs
      simp only [VEBTree.summary, Option.some.injEq] at hs
      rw [← hs]
      exact newTF_congr (ceilSqrt (k + 1)) k (ceilSqrt (k + 1)) (by omega) (by omega)
  · rw [if_neg h]
    refine ⟨rfl, rfl, rfl, ?_, ?_⟩
    · simp only [VEBTree.summary, Option.isSome_none, Bool.false_eq_true, false_iff]
      intro h4
      exact h ((two_lt_ceilSqrt_iff (k + 1)).mpr h4)
    · intro s hs
      simp [VEBTree.summary] at hs

/-- C8, witness: the amended theorem applied at universe 5 (where the
summary is present, of universe `ceilSqrt 5 = 3`). -/
theorem c8_new_invariants_witness :
    2 ≤ 5 ∧
    (VEBTree.new 5 = some (newT 5) ∧
     (newT 5).min = none ∧ (newT 5).max = none ∧
     (newT 5).children = List.replicate (ceilSqrt 5) none ∧
     ((newT 5).summary.isSome ↔ 4 < 5) ∧
     (∀ s, (newT 5).summary = some s → s = newT (ceilSqrt 5))) :=
  ⟨by omega, c8_new_invariants 5 (by omega)⟩

/-- C9, counterexample: the claim says `new(universe)` computes
`sqrt_universe` as `2 ^ ⌈(log₂ universe) / 2⌉`, a power of two.  For
universe 5 that formula gives `2 ^ 2 = 4`, but the code computes
`(5 as f64).sqrt().ceil() = 3` (`src/lib.rs:112`), which is not a power
of two at all. -/
theorem c9_counterexample_sqrt_universe_not_power_of_two :
    (VEBTree.new 5).map VEBTree.sqrt_universe = some 3 ∧
    2 ^ ceilHalfLog 5 = 4 ∧
    ∀ k, 2 ^ k ≠ 3 := by
  refine ⟨by decide, by decide, ?_⟩
  intro k
  match k with
  | 0 => decide
  | 1 => decide
  | k + 2 =>
    intro h
    have h4 : (2 : Nat) ^ 2 ≤ 2 ^ (k + 2) := Nat.pow_le_pow_right (by omega) (by omega)
    omega

/-- C9, amended: `new(universe)` computes `sqrt_universe = ⌈√universe⌉`
(the ceiling square root, characterised by
`(⌈√u⌉ − 1)² < u ≤ ⌈√u⌉²`), which need not be a power of two; the
allocated summary — and hence every child tree `insert` later builds with
`VEBTree::new(sqrt_universe)` — has exactly this universe. -/
theorem c9_new_sqrt_universe_ceil_sqrt (u : Nat) (hu : 2 ≤ u) :
    (VEBTree.new u).map VEBTree.sqrt_universe = some (ceilSqrt u) ∧
    (ceilSqrt u - 1) * (ceilSqrt u - 1) < u ∧
    u ≤ ceilSqrt u * ceilSqrt u ∧
    (∀ s, (newT u).summary = some s → s.univ = ceilSqrt u) := by
  obtain ⟨k, hk⟩ : ∃ k, u = k + 1 := ⟨u - 1, by omega⟩
  refine ⟨?_, ?_, le_ceilSqrt_sq u, ?_⟩
  · unfold VEBTree.new
    rw [if_neg (by omega)]
    subst hk
    unfold newT
    simp only [newTF]
    rfl
  · have hsq := isqrt_sq_le u
    have h1 : 1 ≤ isqrt u := le_isqrtDown u u 1 (by omega) (by omega)
    unfold ceilSqrt
    split
    · rename_i heq
      have : (isqrt u - 1) * (isqrt u - 1) < isqrt u * isqrt u :=
        Nat.mul_self_lt_mul_self (by omega)
      omega
    · rename_i hne
      simp only [Nat.add_sub_cancel]
      omega
  · intro s hs
    subst hk
    unfold newT at hs
    simp only [newTF] at hs
    by_cases h : 2 < ceilSqrt (k + 1)
    · rw [if_pos h] at hs
      simp only [VEBTree.summary, Option.some.injEq] at hs
      rw [← hs]
      cases hc : k with
      | zero => omega
      | succ k' =>
        simp only [newTF, VEBTree.univ]
    · rw [if_neg h] at hs
      simp [VEBTree.summary] at hs

/-- C9, witness: the amended theorem applied at universe 10, where
`sqrt_universe = ⌈√10⌉ = 4`. -/
theorem c9_new_sqrt_universe_ceil_sqrt_witness :
    2 ≤ 10 ∧
    ((VEBTree.new 10).map VEBTree.sqrt_universe = some (ceilSqrt 10) ∧
     (ceilSqrt 10 - 1) * (ceilSqrt 10 - 1) < 10 ∧
     10 ≤ ceilSqrt 10 * ceilSqrt 10 ∧
     (∀ s, (newT 10).summary = some s → s.univ = ceilSqrt 10)) :=
  ⟨by omega, c9_new_sqrt_universe_ceil_sqrt 10 (by omega)⟩

/-- C10, counterexample: the claim says that on every tree satisfying the
representation invariants, `find_next(x)` with `x < universe` never
returns `x` itself.  The tree `exTree10` satisfies the structural-walk
invariants (`wfb`), represents the elements 4 and 9 over universe 10, and
yet `find_next(9) = Some(9)`: the query key 9 is masked to cluster
`(9 >> 2) & high_mask = 0` (the `& high_mask` loses the top bit because
`high_mask = 1` covers only `floor(log2(10)/2) = 1` bit), the empty
cluster 0 sends the search to the summary, and the summary's successor
computation lands back on cluster 2 whose decoded minimum is
`index(2, 1) = 9 = x`. -/
theorem c10_counterexample_find_next_returns_query :
    exTree10.wfb = true ∧ exTree10.univ = 10 ∧ exTree10.elems.contains 9 = true ∧
    exTree10.find_next 9 = some (some 9) := by decide

/-- C10, amended: strictness does hold in the branch that drives the
iterator, namely for queries below the minimum: on every well-formed
non-empty tree, `x < min` implies `find_next(x)` returns a present value
strictly greater than `x` (the minimum itself).  For `x ≥ min` the
returned value can equal `x` (see the counterexample) or even be smaller
than `x`. -/
theorem c10_find_next_strict_below_min (t : VEBTree) (mn x : Nat) (hw : t.wfb = true)
    (hmn : t.min = some mn) (hx : x < mn) :
    ∃ y, t.find_next x = some (some y) ∧ x < y :=
  ⟨mn, findNext_of_lt_min t mn x hw hmn hx, hx⟩

/-- C10, witness: the amended theorem applied to the universe-2 singleton
tree holding 1, at the query 0. -/
theorem c10_find_next_strict_below_min_witness :
    exTree2b.wfb = true ∧ exTree2b.min = some 1 ∧
    (∃ y, exTree2b.find_next 0 = some (some y) ∧ 0 < y) :=
  ⟨by decide, by decide,
    c10_find_next_strict_below_min exTree2b 1 0 (by decide) (by decide) (by omega)⟩
/-- The fuel of `containsF` is irrelevant once it is at least the size of
the tree: the recursion of `contains` terminates within `sz t` levels, so
the fuel-0 clause is unreachable from `VEBTree.contains`. -/
theorem containsF_congr : ∀ (n : Nat) (t : VEBTree), sz t ≤ n →
    ∀ (f f' : Nat), sz t ≤ f → sz t ≤ f' → ∀ x, containsF f t x = containsF f' t x := by
  intro n
  induction n with
  | zero =>
    intro t h
    have := one_le_sz t
    omega
  | succ n ih =>
    intro t hn f f' hf hf' x
    rcases t with ⟨ch, sm, mn, mx, u, lm, hmk, hsh, su⟩
    rw [sz_succ] at hn hf hf'
    obtain ⟨a, ha⟩ : ∃ a, f = a + 1 := ⟨f - 1, by omega⟩
    obtain ⟨b, hb⟩ : ∃ b, f' = b + 1 := ⟨f' - 1, by omega⟩
    subst ha; subst hb
    simp only [containsF]
    split
    · rfl
    · cases mn with
      | none => rfl
      | some mnv =>
        split
        · rfl
        · cases mx with
          | none => rfl
          | some mxv =>
            split
            · rfl
            · rcases hch : ch[(x >>> hsh) &&& hmk]? with _ | ⟨_ | c⟩
              · simp only [hch]
              · simp only [hch]
              · simp only [hch]
                have hlt : sz c < szSlots ch := sz_lt_of_slot hch
                rw [ih c (by omega) a b (by omega) (by omega) (x &&& lm)]

theorem contains_fuel_stable (t : VEBTree) (x f : Nat) (hf : sz t ≤ f) :
    containsF f t x = t.contains x :=
  containsF_congr (sz t) t (Nat.le_refl _) f (sz t) hf (Nat.le_refl _) x

theorem szSum_some {sm : Option VEBTree} {s : VEBTree} (h : sm = some s) :
    szSum sm = 1 + sz s := by rw [h]; simp [szSum]

/-- The fuel of `findNextF` is irrelevant once it is at least the size of
the tree. -/
theorem findNextF_congr : ∀ (n : Nat) (t : VEBTree), sz t ≤ n →
    ∀ (f f' : Nat), sz t ≤ f → sz t ≤ f' → ∀ x, findNextF f t x = findNextF f' t x := by
  intro n
  induction n with
  | zero =>
    intro t h
    have := one_le_sz t
    omega
  | succ n ih =>
    intro t hn f f' hf hf' x
    rcases t with ⟨ch, sm, mn, mx, u, lm, hmk, hsh, su⟩
    rw [sz_succ] at hn hf hf'
    obtain ⟨a, ha⟩ : ∃ a, f = a + 1 := ⟨f - 1, by omega⟩
    obtain ⟨b, hb⟩ : ∃ b, f' = b + 1 := ⟨f' - 1, by omega⟩
    subst ha; subst hb
    simp only [findNextF]
    rcases hch : ch[(x >>> hsh) &&& hmk]? with _ | ⟨_ | c⟩
    · simp only [hch]
    · simp only [hch]
      rcases hsm : sm with _ | s
      · simp only [hsm]
      · simp only [hsm]
        have hs : szSum sm = 1 + sz s := szSum_some hsm
        simp only [ih s (by omega) a b (by omega) (by omega)]
    · simp only [hch]
      have hc : sz c < szSlots ch := sz_lt_of_slot hch
      simp only [ih c (by omega) a b (by omega) (by omega)]
      rcases hsm : sm with _ | s
      · simp only [hsm]
      · simp only [hsm]
        have hs : szSum sm = 1 + sz s := szSum_some hsm
        simp only [ih s (by omega) a b (by omega) (by omega)]

theorem find_next_fuel_stable (t : VEBTree) (x f : Nat) (hf : sz t ≤ f) :
    findNextF f t x = t.find_next x :=
  findNextF_congr (sz t) t (Nat.le_refl _) f (sz t) hf (Nat.le_refl _) x

/-- The fuel of `insertF` is irrelevant once it is at least the size of
the tree. -/
theorem insertF_congr : ∀ (n : Nat) (t : VEBTree), sz t ≤ n →
    ∀ (f f' : Nat), sz t ≤ f → sz t ≤ f' → ∀ x, insertF f t x = insertF f' t x := by
  intro n
  induction n with
  | zero =>
    intro t h
    have := one_le_sz t
    omega
  | succ n ih =>
    intro t hn f f' hf hf' x0
    rcases t with ⟨ch, sm, mn, mx, u, lm, hmk, hsh, su⟩
    rw [sz_succ] at hn hf hf'
    obtain ⟨a, ha⟩ : ∃ a, f = a + 1 := ⟨f - 1, by omega⟩
    obtain ⟨b, hb⟩ : ∃ b, f' = b + 1 := ⟨f' - 1, by omega⟩
    subst ha; subst hb
    simp only [insertF]
    cases mn with
    | none => rfl
    | some mnv =>
      dsimp only
      rw [show (if (some mnv = mx ∧ x0 < mnv) then some x0 else some mnv)
            = some (if (some mnv = mx ∧ x0 < mnv) then x0 else mnv) from
          (apply_ite some _ _ _).symm]
      dsimp only
      cases mx with
      | none =>
        rw [if_neg (by simp : ¬((some mnv : Option Nat) = none ∧ mnv < x0))]
      | some mxv =>
        rw [show (if (some mnv = some mxv ∧ mnv < x0) then some x0 else some mxv)
              = some (if (some mnv = some mxv ∧ mnv < x0) then x0 else mxv) from
            (apply_ite some _ _ _).symm]
        dsimp only
        rcases hch : ch[((if x0 < if some mnv = some mxv ∧ x0 < mnv then x0 else mnv
              then (if some mnv = some mxv ∧ x0 < mnv then x0 else mnv) else x0) >>> hsh) &&& hmk]?
          with _ | ⟨_ | c⟩
        · simp only [hch]
        · simp only [hch]
          rcases hsm : sm with _ | s
          · simp only [hsm]
          · simp only [hsm]
            have hs : szSum sm = 1 + sz s := szSum_some hsm
            simp only [ih s (by omega) a b (by omega) (by omega)]
        · simp only [hch]
          have hc : sz c < szSlots ch := sz_lt_of_slot hch
          simp only [ih c (by omega) a b (by omega) (by omega)]

/-- The fuel of `deleteF` is irrelevant once it is at least the size of
the tree. -/
theorem deleteF_congr : ∀ (n : Nat) (t : VEBTree), sz t ≤ n →
    ∀ (f f' : Nat), sz t ≤ f → sz t ≤ f' → ∀ x, deleteF f t x = deleteF f' t x := by
  intro n
  induction n with
  | zero =>
    intro t h
    have := one_le_sz t
    omega
  | succ n ih =>
    intro t hn f f' hf hf' x0
    rcases t with ⟨ch, sm, mn, mx, u, lm, hmk, hsh, su⟩
    rw [sz_succ] at hn hf hf'
    obtain ⟨a, ha⟩ : ∃ a, f = a + 1 := ⟨f - 1, by omega⟩
    obtain ⟨b, hb⟩ : ∃ b, f' = b + 1 := ⟨f' - 1, by omega⟩
    subst ha; subst hb
    simp only [deleteF]
    cases mn with
    | none => rfl
    | some mnv =>
      dsimp only
      rcases h1 : deleteMinFix ch sm (some mnv) mx mnv x0 with _ | ⟨x1, mn1⟩
      · simp only [h1]
      · simp only [h1]
        cases mx with
        | none => rfl
        | some mxv =>
          dsimp only
          rcases h2 : deleteMaxFix ch sm mn1 (some mxv) mxv x1 with _ | mx1
          · simp only [h2]
          · simp only [h2]
            rcases hsm : sm with _ | s
            · simp only [hsm]
            · simp only [hsm]
              have hs : szSum sm = 1 + sz s := szSum_some hsm
              simp only [ih s (by omega) a b (by omega) (by omega)]
              rcases hch : ch[(x1 >>> hsh) &&& hmk]? with _ | ⟨_ | c⟩
              · simp only [hch]
              · simp only [hch]
              · simp only [hch]
                have hc : sz c < szSlots ch := sz_lt_of_slot hch
                simp only [ih c (by omega) a b (by omega) (by omega)]

theorem insert_fuel_stable (t : VEBTree) (x f : Nat) (hf : sz t ≤ f) :
    insertF f t x = t.insert x :=
  insertF_congr (sz t) t (Nat.le_refl _) f (sz t) hf (Nat.le_refl _) x

theorem delete_fuel_stable (t : VEBTree) (x f : Nat) (hf : sz t ≤ f) :
    deleteF f t x = t.delete x :=
  deleteF_congr (sz t) t (Nat.le_refl _) f (sz t) hf (Nat.le_refl _) x

theorem snd_mem_of_mem_enumFrom {p : Nat × Option VEBTree} :
    ∀ (l : List (Option VEBTree)) (n : Nat), p ∈ l.enumFrom n → p.2 ∈ l := by
  intro l
  induction l with
  | nil => intro n h; simp [List.enumFrom] at h
  | cons a rest ih =>
    intro n h
    simp only [List.enumFrom, List.mem_cons] at h
    rcases h with h | h
    · subst h; simp
    · exact List.mem_cons_of_mem a (ih (n + 1) h)

theorem sz_lt_of_mem {c : VEBTree} :
    ∀ {l : List (Option VEBTree)}, some c ∈ l → sz c < szSlots l := by
  intro l
  induction l with
  | nil => intro h; simp at h
  | cons a rest ih =>
    intro h
    rcases List.mem_cons.mp h with h | h
    · rw [← h]; simp [szSlots]; omega
    · have := ih h
      cases a <;> simp [szSlots] <;> omega

theorem all_congr_mem {α : Type} {p q : α → Bool} :
    ∀ l : List α, (∀ a ∈ l, p a = q a) → l.all p = l.all q := by
  intro l
  induction l with
  | nil => intro _; rfl
  | cons x xs ih =>
    intro h
    simp only [List.all_cons]
    rw [h x (List.mem_cons_self x xs)]
    rw [ih (fun y hy => h y (List.mem_cons_of_mem _ hy))]

/-- The fuel of `elemsF` is irrelevant once it is at least the size of the
tree. -/
theorem elemsF_congr : ∀ (n : Nat) (t : VEBTree), sz t ≤ n →
    ∀ (f f' : Nat), sz t ≤ f → sz t ≤ f' → elemsF f t = elemsF f' t := by
  intro n
  induction n with
  | zero =>
    intro t h
    have := one_le_sz t
    omega
  | succ n ih =>
    intro t hn f f' hf hf'
    rcases t with ⟨ch, sm, mn, mx, u, lm, hmk, hsh, su⟩
    rw [sz_succ] at hn hf hf'
    obtain ⟨a, ha⟩ : ∃ a, f = a + 1 := ⟨f - 1, by omega⟩
    obtain ⟨b, hb⟩ : ∃ b, f' = b + 1 := ⟨f' - 1, by omega⟩
    subst ha; subst hb
    simp only [elemsF]
    congr 2
    apply List.map_congr_left
    intro p hp
    rcases p with ⟨i, _ | c⟩
    · rfl
    · have hmem : some c ∈ ch := snd_mem_of_mem_enumFrom ch 0 hp
      have hc : sz c < szSlots ch := sz_lt_of_mem hmem
      dsimp only
      rw [ih c (by omega) a b (by omega) (by omega)]

/-- The fuel of `wfbF` is irrelevant once it is at least the size of the
tree: `VEBTree.wfb`'s structural walk terminates within `sz t` levels. -/
theorem wfbF_congr : ∀ (n : Nat) (t : VEBTree), sz t ≤ n →
    ∀ (f f' : Nat), sz t ≤ f → sz t ≤ f' → wfbF f t = wfbF f' t := by
  intro n
  induction n with
  | zero =>
    intro t h
    have := one_le_sz t
    omega
  | succ n ih =>
    intro t hn f f' hf hf'
    rcases t with ⟨ch, sm, mn, mx, u, lm, hmk, hsh, su⟩
    rw [sz_succ] at hn hf hf'
    obtain ⟨a, ha⟩ : ∃ a, f = a + 1 := ⟨f - 1, by omega⟩
    obtain ⟨b, hb⟩ : ∃ b, f' = b + 1 := ⟨f' - 1, by omega⟩
    subst ha; subst hb
    simp only [wfbF]
    have hall : (ch.all fun slot =>
        match slot with
        | none => true
        | some c => (c.univ == su) && c.min.isSome && wfbF a c)
        = (ch.all fun slot =>
        match slot with
        | none => true
        | some c => (c.univ == su) && c.min.isSome && wfbF b c) := by
      apply all_congr_mem ch
      intro slot hslot
      cases slot with
      | none => rfl
      | some c =>
        have hc : sz c < szSlots ch := sz_lt_of_mem hslot
        dsimp only
        rw [ih c (by omega) a b (by omega) (by omega)]
    rw [hall]
    rcases hsm : sm with _ | s
    · rfl
    · have hs : szSum sm = 1 + sz s := szSum_some hsm
      dsimp only
      rw [ih s (by omega) a b (by omega) (by omega)]

theorem elems_fuel_stable (t : VEBTree) (f : Nat) (hf : sz t ≤ f) :
    elemsF f t = t.elems :=
  elemsF_congr (sz t) t (Nat.le_refl _) f (sz t) hf (Nat.le_refl _)

theorem wfb_fuel_stable (t : VEBTree) (f : Nat) (hf : sz t ≤ f) :
    wfbF f t = t.wfb :=
  wfbF_congr (sz t) t (Nat.le_refl _) f (sz t) hf (Nat.le_refl _)
